import Mathlib

/-!
Shallow embedding of src/minesweeper.py: the Sentence class and the
MinesweeperAI class (knowledge base, observation recording, move selection).

Modelling conventions:
- A board cell is a pair of integers (row, col), as in Python.
- Python sets of cells become Finset Cell; Python lists become List.
- Python mutates Sentence objects in place while looping over the
  knowledge list; since each Sentence object occurs at most once in the
  list, this is embedded as mapping a pure update function over the list.
- Python set iteration order is unspecified; wherever the source iterates
  over a set of cells and the iteration order can matter, the embedding
  iterates in ascending lexicographic order of (row, col).
- Counts are Int: the source never guards against negative counts.
-/

/-- A board cell: (row, col) pair of integers, as used throughout
minesweeper.py. -/
abbrev Cell : Type := Int × Int

/-- Lexicographic order on cells, used to fix an iteration order for
Python set iteration. -/
def cellLe (a b : Cell) : Prop := a.1 < b.1 ∨ (a.1 = b.1 ∧ a.2 ≤ b.2)

instance : DecidableRel cellLe := fun a b => by
  unfold cellLe; infer_instance

instance : IsTrans Cell cellLe := by
  constructor; intro a b c hab hbc; unfold cellLe at *; omega

instance : IsAntisymm Cell cellLe := by
  constructor
  intro a b hab hba
  unfold cellLe at hab hba
  have h1 : a.1 = b.1 := by omega
  have h2 : a.2 = b.2 := by omega
  exact Prod.ext h1 h2

instance : IsTotal Cell cellLe := by
  constructor; intro a b; unfold cellLe; omega

/-- Enumerate a finite set of cells in ascending order (the embedding of
iterating over a Python set of cells).  Insertion sort is used because it
is structurally recursive, so concrete states evaluate inside the kernel. -/
def cellsAsc (s : Finset Cell) : List Cell :=
  Quotient.lift (List.insertionSort cellLe)
    (fun l1 l2 h => List.eq_of_perm_of_sorted
      (((List.perm_insertionSort cellLe l1).trans h).trans
        (List.perm_insertionSort cellLe l2).symm)
      (List.sorted_insertionSort cellLe l1)
      (List.sorted_insertionSort cellLe l2))
    s.val

lemma mem_cellsAsc {s : Finset Cell} {c : Cell} : c ∈ cellsAsc s ↔ c ∈ s := by
  rcases s with ⟨m, nd⟩
  induction m using Quotient.inductionOn with
  | h l =>
    change c ∈ List.insertionSort cellLe l ↔ _
    rw [(List.perm_insertionSort cellLe l).mem_iff]
    simp [Finset.mem_def]

lemma length_cellsAsc (s : Finset Cell) : (cellsAsc s).length = s.card := by
  rcases s with ⟨m, nd⟩
  induction m using Quotient.inductionOn with
  | h l =>
    change (List.insertionSort cellLe l).length = _
    rw [(List.perm_insertionSort cellLe l).length_eq]
    simp [Finset.card, Multiset.card]

/-- The Sentence class of minesweeper.py: a set of board cells and a count
of how many of those cells are mines.  Structural equality on (cells,
count) matches the Python eq method. -/
structure Sentence where
  cells : Finset Cell
  count : Int
deriving DecidableEq

/-- Sentence.known_mines (lines 105-110): the source returns self.cells
unconditionally. -/
def Sentence.known_mines (s : Sentence) : Finset Cell := s.cells

/-- Sentence.known_safes (lines 112-117): the source returns self.cells
unconditionally. -/
def Sentence.known_safes (s : Sentence) : Finset Cell := s.cells

/-- Sentence.mark_mine (lines 119-130): if cells equals the singleton of
the marked cell, set count to 1; if cells is a strict superset of that
singleton, remove the cell and decrement count; otherwise do nothing. -/
def Sentence.mark_mine (c : Cell) (s : Sentence) : Sentence :=
  if s.cells = {c} then { s with count := 1 }
  else if {c} ⊂ s.cells then { cells := s.cells \ {c}, count := s.count - 1 }
  else s

/-- Sentence.mark_safe (lines 132-142): if cells equals the singleton of
the marked cell, set count to 0; if cells is a strict superset of that
singleton, remove the cell (count unchanged); otherwise do nothing. -/
def Sentence.mark_safe (c : Cell) (s : Sentence) : Sentence :=
  if s.cells = {c} then { s with count := 0 }
  else if {c} ⊂ s.cells then { s with cells := s.cells \ {c} }
  else s

/-- The MinesweeperAI class state (lines 150-164): grid dimensions, the
cells already clicked, the cells known to be mines or safe, and the list
of sentences (the knowledge base). -/
structure AI where
  height : Int
  width : Int
  moves_made : Finset Cell
  mines : Finset Cell
  safes : Finset Cell
  knowledge : List Sentence
deriving DecidableEq

/-- The constructor MinesweeperAI.__init__: empty sets and empty knowledge. -/
def AI.init (height width : Int) : AI :=
  { height := height, width := width, moves_made := ∅, mines := ∅,
    safes := ∅, knowledge := [] }

/-- MinesweeperAI.mark_mine (lines 166-173): add the cell to mines and
apply Sentence.mark_mine to every sentence in the knowledge list. -/
def AI.mark_mine (ai : AI) (c : Cell) : AI :=
  { ai with mines := insert c ai.mines,
            knowledge := ai.knowledge.map (Sentence.mark_mine c) }

/-- MinesweeperAI.mark_safe (lines 175-182): add the cell to safes and
apply Sentence.mark_safe to every sentence in the knowledge list. -/
def AI.mark_safe (ai : AI) (c : Cell) : AI :=
  { ai with safes := insert c ai.safes,
            knowledge := ai.knowledge.map (Sentence.mark_safe c) }

/-- Lines 199-205 of add_knowledge: add the move to moves_made, append the
singleton sentence (set containing only the move, count 0), then mark the
move safe. -/
def AI.step12 (ai : AI) (move : Cell) : AI :=
  AI.mark_safe
    { ai with moves_made := insert move ai.moves_made,
              knowledge := ai.knowledge ++ [⟨{move}, 0⟩] }
    move

/-- Lines 209-216 of add_knowledge: the in-bounds neighbors of the move
(the 3x3 block around it minus the move itself, clipped to the grid), in
the row-major order of the Python double loop.  The two Python tests
(skip the move, then the bounds test) are combined into one condition. -/
def neighborList (height width : Int) (move : Cell) : List Cell :=
  ([move.1 - 1, move.1, move.1 + 1]).flatMap (fun i =>
    ([move.2 - 1, move.2, move.2 + 1]).filterMap (fun j =>
      if (i, j) ≠ move ∧ 0 ≤ i ∧ i < height ∧ 0 ≤ j ∧ j < width
      then some (i, j) else none))

/-- Line 217 of add_knowledge: append the sentence over the raw in-bounds
neighborhood with the reported count. -/
def AI.step3 (ai : AI) (move : Cell) (count : Int) : AI :=
  { ai with knowledge :=
      ai.knowledge ++ [⟨(neighborList ai.height ai.width move).toFinset, count⟩] }

/-- Lines 219-234 of add_knowledge: direct inference on the new neighbor
sentence (marking every neighbor safe when count is 0, or a mine when
count equals the number of neighbors), followed by appending one singleton
sentence per neighbor with count n.  In the source n stays -10000 unless
one of the marking loops ran at least once, so the singleton block runs
exactly when a marking branch was taken on a non-empty neighbor list. -/
def phase45 (ai : AI) (nb : List Cell) (count : Int) : AI :=
  if count = 0 then
    let ai4 := nb.foldl AI.mark_safe ai
    if nb.isEmpty then ai4
    else { ai4 with knowledge := ai4.knowledge ++ nb.map (fun c => ⟨{c}, 0⟩) }
  else if count = ((nb.toFinset.card : Int)) then
    let ai4 := nb.foldl AI.mark_mine ai
    if nb.isEmpty then ai4
    else { ai4 with knowledge := ai4.knowledge ++ nb.map (fun c => ⟨{c}, 1⟩) }
  else ai

/-- One iteration of the nested subset-inference loop (lines 239-253),
for index i of the outer loop and j of the inner loop.  The state is the
AI (whose sentences the source mutates in place mid-loop) together with
the new_knowledge accumulator.  Sentences are read from the current,
possibly already mutated, knowledge list; equality of the two sentences is
the structural Python eq; derived sentences go to the accumulator, and
count-0 or count-full derivations immediately mark cells. -/
def pairStep (st : AI × List Sentence) (i j : Nat) : AI × List Sentence :=
  match st.1.knowledge.get? i, st.1.knowledge.get? j with
  | some sen, some snt =>
    if sen = snt then st
    else if sen.cells ⊂ snt.cells then
      let new_set := snt.cells \ sen.cells
      let new_count := snt.count - sen.count
      let nk := st.2 ++ [⟨new_set, new_count⟩]
      let a1 := if new_count = 0
                then (cellsAsc new_set).foldl AI.mark_safe st.1 else st.1
      let a2 := if new_count = ((new_set.card : Int))
                then (cellsAsc new_set).foldl AI.mark_mine a1 else a1
      (a2, nk)
    else st
  | _, _ => st

/-- Lines 238-255 of add_knowledge: run the nested subset-inference loop
over all index pairs of the knowledge list (its length is fixed during the
loop: marks only map sentences in place and derivations go to the
accumulator), then extend the knowledge list with the accumulator. -/
def subsetPhase (ai : AI) : AI :=
  let L := ai.knowledge.length
  let st := (List.range L).foldl
    (fun st1 i => (List.range L).foldl (fun st2 j => pairStep st2 i j) st1)
    (ai, [])
  { st.1 with knowledge := st.1.knowledge ++ st.2 }

/-- Lines 266-279 of add_knowledge: keep, for every distinct cell set, the
sentence at the least index having that cell set.  The source groups
indices by cell set and keeps knowledge[index[0]] of each group; the
iteration order of its set of index tuples is unspecified, so the
embedding keeps first occurrences in list order (same elements). -/
def dedupByCells (seen : Finset (Finset Cell)) : List Sentence → List Sentence
  | [] => []
  | s :: rest =>
    if s.cells ∈ seen then dedupByCells seen rest
    else s :: dedupByCells (insert s.cells seen) rest

/-- The cleanup step of add_knowledge.  The loop at lines 257-263 calls
set.union on safes and mines but discards the results, so it changes no
state and is not represented; lines 266-279 deduplicate by cell set. -/
def reducePhase (ai : AI) : AI :=
  { ai with knowledge := dedupByCells ∅ ai.knowledge }

/-- MinesweeperAI.add_knowledge (lines 184-282), assembled from its
phases in source order. -/
def AI.add_knowledge (ai : AI) (move : Cell) (count : Int) : AI :=
  let ai2 := ai.step12 move
  let ai3 := ai2.step3 move count
  let nb := neighborList ai2.height ai2.width move
  reducePhase (subsetPhase (phase45 ai3 nb count))

/-- All grid cells (lines 309-312 of make_random_move): (i, j) for i below
height and j below width, in row-major order. -/
def allCellsList (height width : Int) : List Cell :=
  (List.range height.toNat).flatMap (fun i =>
    (List.range width.toNat).map (fun j => ((i : Int), (j : Int))))

/-- The grid as a finite set of cells. -/
def allCells (height width : Int) : Finset Cell := (allCellsList height width).toFinset

/-- The embedding of random.choice(list(candidates)) over a set of cells:
pick the element at an arbitrary index k (reduced modulo the size) of the
candidates enumerated in ascending order, or None when the set is empty. -/
def pickAsc (s : Finset Cell) (k : Nat) : Option Cell :=
  if hl : 0 < (cellsAsc s).length
  then some ((cellsAsc s).get ⟨k % (cellsAsc s).length, Nat.mod_lt k hl⟩)
  else none

/-- MinesweeperAI.make_safe_move (lines 285-300): pick an element of
safes minus moves_made if that set is non-empty, else None; no state is
modified. -/
def AI.make_safe_move (ai : AI) (k : Nat) : Option Cell :=
  pickAsc (ai.safes \ ai.moves_made) k

/-- MinesweeperAI.make_random_move (lines 302-320): pick an element of the
full grid minus mines minus moves_made if non-empty, else None; no state
is modified. -/
def AI.make_random_move (ai : AI) (k : Nat) : Option Cell :=
  pickAsc ((allCells ai.height ai.width \ ai.mines) \ ai.moves_made) k

/-- A knowledge-base state reachable by a sequence of add_knowledge calls
that are truthful for a fixed mine layout: every observed cell is not a
mine of the layout, and every reported count is the exact number of layout
mines among the in-bounds neighbors of the observed cell. -/
inductive TReach (layout : Finset Cell) : AI → Prop where
  | init (height width : Int) : TReach layout (AI.init height width)
  | step (ai : AI) (move : Cell) (count : Int) :
      TReach layout ai → move ∉ layout →
      count = (((neighborList ai.height ai.width move).toFinset ∩ layout).card : Int) →
      TReach layout (ai.add_knowledge move count)

set_option maxRecDepth 8000

/-- Claim C1, counterexample.  The claim asserts that known_mines and
known_safe are disjoint after any sequence of record_observation calls.
On a 1 by 2 grid, observing (0,0) with count 1 marks (0,1) a mine, and a
later (contradictory) observation of (0,1) itself marks (0,1) safe, so
(0,1) ends up in both sets: the code never guards the two sets against
each other. -/
theorem contradictory_history_marks_cell_mine_and_safe :
    (0,1) ∈ (((AI.init 1 2).add_knowledge (0,0) 1).add_knowledge (0,1) 0).mines ∧
    (0,1) ∈ (((AI.init 1 2).add_knowledge (0,0) 1).add_knowledge (0,1) 0).safes := by
  decide

/-- Claim C2, counterexample.  The claim asserts every pool sentence
satisfies 0 <= count <= number of cells after any record_observation
calls.  Passing count 5 for a cell with a single in-bounds neighbor
leaves the sentence with cell set of size one and count 5 in the pool. -/
theorem pool_sentence_count_exceeds_cells :
    (⟨{(0,1)}, 5⟩ : Sentence) ∈ ((AI.init 1 2).add_knowledge (0,0) 5).knowledge ∧
    ¬ ((⟨{(0,1)}, 5⟩ : Sentence).count ≤ ((⟨{(0,1)}, 5⟩ : Sentence).cells.card : Int)) := by
  decide

/-- Claim C3, code bug.  On a 1 by 3 grid with a mine at (0,2), the
truthful observations (0,1) with count 1 and then (0,0) with count 0
leave the sentence with cell set containing exactly (0,2) and count 1 in
the pool while (0,2) is in neither mines nor safes: the count equals the
size of the cell set, yet direct inference never marks the cell, because
the source applies direct inference only to the newly observed
neighborhood and the loop at lines 257-263 discards the results of
set.union.  No fixed point is reached. -/
theorem direct_inference_not_fixed_point :
    (⟨{(0,2)}, 1⟩ : Sentence) ∈
      (((AI.init 1 3).add_knowledge (0,1) 1).add_knowledge (0,0) 0).knowledge ∧
    (0,2) ∉ (((AI.init 1 3).add_knowledge (0,1) 1).add_knowledge (0,0) 0).mines ∧
    (0,2) ∉ (((AI.init 1 3).add_knowledge (0,1) 1).add_knowledge (0,0) 0).safes := by
  decide

/-- Claim C4, code bug.  Sentence.known_mines and Sentence.known_safes
(lines 105-117) return the whole cell set unconditionally, against their
own docstrings and the claim: for a sentence with two cells and count 1
neither query should return cells (count is neither 0 nor the set size),
yet both return the full set. -/
theorem known_mines_known_safes_return_all_cells :
    (⟨{(0,0),(0,1)}, 1⟩ : Sentence).known_mines = {(0,0),(0,1)} ∧
    (⟨{(0,0),(0,1)}, 1⟩ : Sentence).known_safes = {(0,0),(0,1)} := by
  decide

/-- Claim C5, counterexample.  The claim asserts mark_mine removes the
cell and decrements the count whenever the cell is a member, including
when the cell set is exactly the singleton of that cell.  On the
singleton sentence with count 1, mark_mine keeps the cell (and sets the
count to 1) instead of removing it. -/
theorem mark_mine_singleton_keeps_cell :
    (0,0) ∈ (Sentence.mark_mine (0,0) ⟨{(0,0)}, 1⟩).cells ∧
    (Sentence.mark_mine (0,0) ⟨{(0,0)}, 1⟩).count = 1 := by
  decide

/-- Claim C6, counterexample.  After truthfully observing (0,1) on a 1 by
3 grid, the cell (0,1) is in moves_made and safes; the claim says the
constraint added for a later observation of (0,0) must exclude it (and no
constraint should be added since the filtered neighborhood is empty), yet
the sentence appended at step 3 is exactly the unfiltered singleton of
(0,1). -/
theorem neighbor_sentence_keeps_known_safe_cell :
    ((((AI.init 1 3).add_knowledge (0,1) 1).step12 (0,0)).step3 (0,0) 0).knowledge.getLast?
      = some ⟨{(0,1)}, 0⟩ ∧
    (0,1) ∈ ((AI.init 1 3).add_knowledge (0,1) 1).moves_made ∧
    (0,1) ∈ ((AI.init 1 3).add_knowledge (0,1) 1).safes := by
  decide

/-- Claim C7, counterexample.  The claim asserts the pool never contains
a sentence with an empty cell set when record_observation returns.  On a
1 by 1 grid the observed cell has no in-bounds neighbors, the neighbor
sentence is added with an empty cell set, and no cleanup removes it. -/
theorem empty_cellset_sentence_persists :
    (⟨∅, 0⟩ : Sentence) ∈ ((AI.init 1 1).add_knowledge (0,0) 0).knowledge := by
  decide

lemma ite_some_eq_some {C : Prop} [Decidable C] {x c : Cell} :
    (if C then some x else none) = some c ↔ C ∧ x = c := by
  split_ifs with h <;> simp [h]

lemma mem_neighborList {height width : Int} {move c : Cell} :
    c ∈ neighborList height width move ↔
      (c ≠ move ∧ move.1 - 1 ≤ c.1 ∧ c.1 ≤ move.1 + 1 ∧ move.2 - 1 ≤ c.2 ∧
       c.2 ≤ move.2 + 1 ∧ 0 ≤ c.1 ∧ c.1 < height ∧ 0 ≤ c.2 ∧ c.2 < width) := by
  obtain ⟨x, y⟩ := c
  obtain ⟨m1, m2⟩ := move
  simp only [neighborList, List.mem_flatMap, List.mem_filterMap, List.mem_cons,
    List.not_mem_nil, or_false, ite_some_eq_some]
  constructor
  · rintro ⟨i, hi, j, hj, ⟨hne, hb1, hb2, hb3, hb4⟩, heq⟩
    cases heq
    refine ⟨hne, ?_, ?_, ?_, ?_, hb1, hb2, hb3, hb4⟩ <;> omega
  · rintro ⟨hne, h1, h2, h3, h4, h5, h6, h7, h8⟩
    refine ⟨x, ?_, y, ?_, ⟨hne, h5, h6, h7, h8⟩, rfl⟩ <;> omega

/-- Claim C5, amended.  Sentence.mark_mine leaves the sentence unchanged
when the marked cell is absent; when the cell is a member and the cell
set is strictly larger than its singleton, it removes the cell and
decrements the count; but when the cell set is exactly that singleton it
keeps the cell and sets the count to 1 instead of removing it. -/
theorem mark_mine_characterization :
    ∀ (s : Sentence) (c : Cell),
      Sentence.mark_mine c s =
        if s.cells = {c} then { s with count := 1 }
        else if c ∈ s.cells then ⟨s.cells \ {c}, s.count - 1⟩
        else s := by
  intro s c
  unfold Sentence.mark_mine
  by_cases h1 : s.cells = {c}
  · simp [h1]
  · simp only [h1, if_false]
    by_cases h2 : c ∈ s.cells
    · have hss : {c} ⊂ s.cells := by
        rw [Finset.ssubset_iff_subset_ne]
        exact ⟨Finset.singleton_subset_iff.mpr h2, fun he => h1 he.symm⟩
      simp [hss, h2]
    · have hss : ¬ ({c} ⊂ s.cells) :=
        fun hss => h2 (Finset.singleton_subset_iff.mp hss.subset)
      simp [hss, h2]

/-- Claim C6, amended.  The sentence appended at step 3 of add_knowledge
is built over the full in-bounds 8-neighborhood of the observed cell
(everything within one row and one column, the cell itself excluded,
clipped to the grid), with no exclusion of cells already in moves_made,
known mines, or known safes, and it is appended even when that
neighborhood is empty. -/
theorem step3_neighborhood_unfiltered :
    ∀ (ai : AI) (move : Cell) (count : Int),
      (ai.step3 move count).knowledge =
        ai.knowledge ++ [⟨(neighborList ai.height ai.width move).toFinset, count⟩] ∧
      ∀ c : Cell, c ∈ (neighborList ai.height ai.width move).toFinset ↔
        (c ≠ move ∧ move.1 - 1 ≤ c.1 ∧ c.1 ≤ move.1 + 1 ∧ move.2 - 1 ≤ c.2 ∧
         c.2 ≤ move.2 + 1 ∧ 0 ≤ c.1 ∧ c.1 < ai.height ∧ 0 ≤ c.2 ∧ c.2 < ai.width) := by
  intro ai move count
  refine ⟨rfl, fun c => ?_⟩
  rw [List.mem_toFinset]
  exact mem_neighborList

lemma dedup_cells_not_seen :
    ∀ (l : List Sentence) (seen : Finset (Finset Cell)) (s : Sentence),
      s ∈ dedupByCells seen l → s.cells ∉ seen := by
  intro l
  induction l with
  | nil => intro seen s h; simp [dedupByCells] at h
  | cons a t ih =>
    intro seen s h
    rw [dedupByCells] at h
    split_ifs at h with hc
    · exact ih seen s h
    · rcases List.mem_cons.mp h with rfl | hmem
      · exact hc
      · intro hs
        exact ih (insert a.cells seen) s hmem (Finset.mem_insert_of_mem hs)

lemma dedup_pairwise :
    ∀ (l : List Sentence) (seen : Finset (Finset Cell)),
      (dedupByCells seen l).Pairwise (fun s t => s.cells ≠ t.cells) := by
  intro l
  induction l with
  | nil => intro seen; simp [dedupByCells]
  | cons a t ih =>
    intro seen
    rw [dedupByCells]
    split_ifs with hc
    · exact ih seen
    · refine List.Pairwise.cons ?_ (ih (insert a.cells seen))
      intro s hs heq
      exact dedup_cells_not_seen t (insert a.cells seen) s hs
        (heq ▸ Finset.mem_insert_self a.cells seen)

/-- Claim C7, amended.  When add_knowledge returns, no two distinct pool
sentences have the same cell set (one representative per cell set is
kept); sentences with empty cell sets, however, are not discarded. -/
theorem pool_cellsets_pairwise_distinct :
    ∀ (ai : AI) (move : Cell) (count : Int),
      ((ai.add_knowledge move count).knowledge).Pairwise
        (fun s t => s.cells ≠ t.cells) := by
  intro ai move count
  exact dedup_pairwise _ ∅

lemma pickAsc_none_iff (s : Finset Cell) (k : Nat) : pickAsc s k = none ↔ s = ∅ := by
  unfold pickAsc
  split_ifs with hl
  · constructor
    · intro h; cases h
    · intro h
      subst h
      rw [length_cellsAsc] at hl
      simp at hl
  · constructor
    · intro _
      have h0 : (cellsAsc s).length = 0 := by omega
      rw [length_cellsAsc] at h0
      exact Finset.card_eq_zero.mp h0
    · intro _; rfl

lemma pickAsc_mem {s : Finset Cell} {k : Nat} {c : Cell} :
    pickAsc s k = some c → c ∈ s := by
  unfold pickAsc
  split_ifs with hl
  · intro h
    have hc : (cellsAsc s).get ⟨k % (cellsAsc s).length, Nat.mod_lt k hl⟩ = c :=
      Option.some.inj h
    rw [← hc]
    exact mem_cellsAsc.mp (List.get_mem _ _ _)
  · intro h; cases h

/-- Claim C8.  make_safe_move returns None exactly when safes minus
moves_made is empty, and any returned cell lies in safes and outside
moves_made; make_random_move returns None exactly when the grid minus
mines minus moves_made is empty, and any returned cell lies in the grid,
outside mines and outside moves_made.  Neither function modifies the
state: both are state-free functions of the AI record in this embedding,
as the source methods only read self. -/
theorem move_selection_spec :
    ∀ (ai : AI) (k : Nat),
      ((ai.make_safe_move k = none ↔ ai.safes \ ai.moves_made = ∅) ∧
       (∀ c, ai.make_safe_move k = some c → c ∈ ai.safes ∧ c ∉ ai.moves_made)) ∧
      ((ai.make_random_move k = none ↔
          (allCells ai.height ai.width \ ai.mines) \ ai.moves_made = ∅) ∧
       (∀ c, ai.make_random_move k = some c →
          c ∈ allCells ai.height ai.width ∧ c ∉ ai.mines ∧ c ∉ ai.moves_made)) := by
  intro ai k
  refine ⟨⟨pickAsc_none_iff _ k, fun c h => ?_⟩,
          ⟨pickAsc_none_iff _ k, fun c h => ?_⟩⟩
  · have hm := pickAsc_mem h
    rw [Finset.mem_sdiff] at hm
    exact hm
  · have hm := pickAsc_mem h
    rw [Finset.mem_sdiff, Finset.mem_sdiff] at hm
    exact ⟨hm.1.1, hm.1.2, hm.2⟩

/-- Witness for claim C8 at a concrete state: on a 2 by 2 grid with
safes containing (0,0) and (0,1) and moves_made containing (0,0),
make_safe_move returns the cell (0,1), which is safe and not yet played. -/
theorem move_selection_spec_witness :
    (0,1) ∈ (AI.mk 2 2 {(0,0)} ∅ {(0,0),(0,1)} []).safes ∧
    (0,1) ∉ (AI.mk 2 2 {(0,0)} ∅ {(0,0),(0,1)} []).moves_made :=
  (move_selection_spec (AI.mk 2 2 {(0,0)} ∅ {(0,0),(0,1)} []) 0).1.2 (0,1) (by decide)

lemma foldl_preserves {α β : Type} (P : α → Prop) (g : α → β → α)
    (h : ∀ x b, P x → P (g x b)) :
    ∀ (l : List β) (a : α), P a → P (l.foldl g a) := by
  intro l
  induction l with
  | nil => intro a ha; exact ha
  | cons b t ih => intro a ha; exact ih (g a b) (h a b ha)

def SubAI (a b : AI) : Prop :=
  a.moves_made ⊆ b.moves_made ∧ a.mines ⊆ b.mines ∧ a.safes ⊆ b.safes

lemma subAI_refl (a : AI) : SubAI a a :=
  ⟨Finset.Subset.refl _, Finset.Subset.refl _, Finset.Subset.refl _⟩

lemma subAI_trans {a b c : AI} (h1 : SubAI a b) (h2 : SubAI b c) : SubAI a c :=
  ⟨h1.1.trans h2.1, h1.2.1.trans h2.2.1, h1.2.2.trans h2.2.2⟩

lemma subAI_mark_safe (ai : AI) (c : Cell) : SubAI ai (ai.mark_safe c) :=
  ⟨Finset.Subset.refl _, Finset.Subset.refl _, Finset.subset_insert _ _⟩

lemma subAI_mark_mine (ai : AI) (c : Cell) : SubAI ai (ai.mark_mine c) :=
  ⟨Finset.Subset.refl _, Finset.subset_insert _ _, Finset.Subset.refl _⟩

lemma subAI_foldl {g : AI → Cell → AI} (hg : ∀ x b, SubAI x (g x b)) :
    ∀ (l : List Cell) (a : AI), SubAI a (l.foldl g a) := by
  intro l a
  exact foldl_preserves (SubAI a) g (fun x b hx => subAI_trans hx (hg x b)) l a (subAI_refl a)

lemma subAI_ite_fold_safe (C : Prop) [Decidable C] (l : List Cell) (a : AI) :
    SubAI a (if C then l.foldl AI.mark_safe a else a) := by
  split_ifs
  · exact subAI_foldl subAI_mark_safe l a
  · exact subAI_refl a

lemma subAI_ite_fold_mine (C : Prop) [Decidable C] (l : List Cell) (a : AI) :
    SubAI a (if C then l.foldl AI.mark_mine a else a) := by
  split_ifs
  · exact subAI_foldl subAI_mark_mine l a
  · exact subAI_refl a

lemma subAI_pairStep (st : AI × List Sentence) (i j : Nat) :
    SubAI st.1 (pairStep st i j).1 := by
  unfold pairStep
  cases hi : st.1.knowledge.get? i with
  | none => exact subAI_refl _
  | some sen =>
    cases hj : st.1.knowledge.get? j with
    | none => exact subAI_refl _
    | some snt =>
      dsimp only
      split_ifs <;>
        first
          | exact subAI_refl _
          | exact subAI_foldl subAI_mark_safe _ _
          | exact subAI_foldl subAI_mark_mine _ _
          | exact subAI_trans (subAI_foldl subAI_mark_safe _ _)
              (subAI_foldl subAI_mark_mine _ _)

lemma subAI_subsetPhase (ai : AI) : SubAI ai (subsetPhase ai) := by
  unfold subsetPhase
  dsimp only
  have h : SubAI ai ((List.range ai.knowledge.length).foldl
      (fun st1 i => (List.range ai.knowledge.length).foldl
        (fun st2 j => pairStep st2 i j) st1) (ai, [])).1 := by
    apply foldl_preserves (fun st : AI × List Sentence => SubAI ai st.1)
    · intro x i hx
      refine subAI_trans hx ?_
      apply foldl_preserves (fun st : AI × List Sentence => SubAI x.1 st.1)
      · intro y j hy
        exact subAI_trans hy (subAI_pairStep y i j)
      · exact subAI_refl _
    · exact subAI_refl _
  exact h

lemma subAI_phase45 (ai : AI) (nb : List Cell) (count : Int) :
    SubAI ai (phase45 ai nb count) := by
  unfold phase45
  split_ifs <;>
    first
      | exact subAI_refl _
      | exact subAI_foldl subAI_mark_safe _ _
      | exact subAI_foldl subAI_mark_mine _ _

lemma subAI_step3 (ai : AI) (move : Cell) (count : Int) :
    SubAI ai (ai.step3 move count) :=
  ⟨Finset.Subset.refl _, Finset.Subset.refl _, Finset.Subset.refl _⟩

lemma subAI_reducePhase (ai : AI) : SubAI ai (reducePhase ai) :=
  ⟨Finset.Subset.refl _, Finset.Subset.refl _, Finset.Subset.refl _⟩

lemma subAI_step12 (ai : AI) (move : Cell) : SubAI ai (ai.step12 move) := by
  unfold AI.step12
  refine subAI_trans ?_ (subAI_mark_safe _ _)
  exact ⟨Finset.subset_insert _ _, Finset.Subset.refl _, Finset.Subset.refl _⟩

/-- Claim C9.  Across any single add_knowledge call, from any state and
for any input, the sets moves_made, mines and safes only grow: the code
only ever inserts into these sets. -/
theorem add_knowledge_monotone :
    ∀ (ai : AI) (move : Cell) (count : Int),
      ai.moves_made ⊆ (ai.add_knowledge move count).moves_made ∧
      ai.mines ⊆ (ai.add_knowledge move count).mines ∧
      ai.safes ⊆ (ai.add_knowledge move count).safes := by
  intro ai move count
  have h : SubAI ai (ai.add_knowledge move count) := by
    show SubAI ai (reducePhase (subsetPhase (phase45 ((ai.step12 move).step3 move count)
      (neighborList (ai.step12 move).height (ai.step12 move).width move) count)))
    exact subAI_trans (subAI_step12 ai move)
      (subAI_trans (subAI_step3 _ _ _)
        (subAI_trans (subAI_phase45 _ _ _)
          (subAI_trans (subAI_subsetPhase _) (subAI_reducePhase _))))
  exact ⟨h.1, h.2.1, h.2.2⟩

lemma cells_singleton_mark_safe {s : Sentence} {m c : Cell} (h : s.cells = {m}) :
    (Sentence.mark_safe c s).cells = {m} := by
  unfold Sentence.mark_safe
  split_ifs with h1 h2
  · exact h
  · exfalso
    rw [h] at h2
    rcases Finset.ssubset_iff_subset_ne.mp h2 with ⟨hsub, hne⟩
    have hc : c = m := Finset.mem_singleton.mp (Finset.singleton_subset_iff.mp hsub)
    exact hne (by rw [hc])
  · exact h

lemma cells_singleton_mark_mine {s : Sentence} {m c : Cell} (h : s.cells = {m}) :
    (Sentence.mark_mine c s).cells = {m} := by
  unfold Sentence.mark_mine
  split_ifs with h1 h2
  · exact h
  · exfalso
    rw [h] at h2
    rcases Finset.ssubset_iff_subset_ne.mp h2 with ⟨hsub, hne⟩
    have hc : c = m := Finset.mem_singleton.mp (Finset.singleton_subset_iff.mp hsub)
    exact hne (by rw [hc])
  · exact h

/-- The pool contains a sentence whose cell set is exactly the singleton
of the given cell. -/
def HasSingleton (m : Cell) (ai : AI) : Prop :=
  ∃ s ∈ ai.knowledge, s.cells = {m}

lemma hasSingleton_mark_safe {m : Cell} {ai : AI} (c : Cell)
    (h : HasSingleton m ai) : HasSingleton m (ai.mark_safe c) := by
  rcases h with ⟨s, hs, hc⟩
  exact ⟨Sentence.mark_safe c s, List.mem_map_of_mem _ hs, cells_singleton_mark_safe hc⟩

lemma hasSingleton_mark_mine {m : Cell} {ai : AI} (c : Cell)
    (h : HasSingleton m ai) : HasSingleton m (ai.mark_mine c) := by
  rcases h with ⟨s, hs, hc⟩
  exact ⟨Sentence.mark_mine c s, List.mem_map_of_mem _ hs, cells_singleton_mark_mine hc⟩

lemma hasSingleton_fold_safe {m : Cell} {ai : AI} (l : List Cell)
    (h : HasSingleton m ai) : HasSingleton m (l.foldl AI.mark_safe ai) :=
  foldl_preserves (HasSingleton m) AI.mark_safe
    (fun _x b hx => hasSingleton_mark_safe b hx) l ai h

lemma hasSingleton_fold_mine {m : Cell} {ai : AI} (l : List Cell)
    (h : HasSingleton m ai) : HasSingleton m (l.foldl AI.mark_mine ai) :=
  foldl_preserves (HasSingleton m) AI.mark_mine
    (fun _x b hx => hasSingleton_mark_mine b hx) l ai h

lemma hasSingleton_append {m : Cell} {ai : AI} {extra : List Sentence}
    (h : HasSingleton m ai) :
    HasSingleton m { ai with knowledge := ai.knowledge ++ extra } := by
  rcases h with ⟨s, hs, hc⟩
  exact ⟨s, List.mem_append_left extra hs, hc⟩

lemma hasSingleton_pairStep {m : Cell} (st : AI × List Sentence) (i j : Nat)
    (h : HasSingleton m st.1) : HasSingleton m (pairStep st i j).1 := by
  unfold pairStep
  cases hi : st.1.knowledge.get? i with
  | none => exact h
  | some sen =>
    cases hj : st.1.knowledge.get? j with
    | none => exact h
    | some snt =>
      dsimp only
      split_ifs <;>
        first
          | exact h
          | exact hasSingleton_fold_safe _ h
          | exact hasSingleton_fold_mine _ h
          | exact hasSingleton_fold_mine _ (hasSingleton_fold_safe _ h)

lemma hasSingleton_subsetPhase {m : Cell} {ai : AI} (h : HasSingleton m ai) :
    HasSingleton m (subsetPhase ai) := by
  unfold subsetPhase
  dsimp only
  have hst : HasSingleton m ((List.range ai.knowledge.length).foldl
      (fun st1 i => (List.range ai.knowledge.length).foldl
        (fun st2 j => pairStep st2 i j) st1) (ai, [])).1 := by
    apply foldl_preserves (fun st : AI × List Sentence => HasSingleton m st.1)
    · intro _x i hx
      apply foldl_preserves (fun st : AI × List Sentence => HasSingleton m st.1)
      · intro y j hy
        exact hasSingleton_pairStep y i j hy
      · exact hx
    · exact h
  rcases hst with ⟨s, hs, hc⟩
  exact ⟨s, List.mem_append_left _ hs, hc⟩

lemma hasSingleton_phase45 {m : Cell} {ai : AI} (nb : List Cell) (count : Int)
    (h : HasSingleton m ai) : HasSingleton m (phase45 ai nb count) := by
  unfold phase45
  split_ifs <;>
    first
      | exact hasSingleton_fold_safe _ h
      | exact hasSingleton_fold_mine _ h
      | exact hasSingleton_append (hasSingleton_fold_safe _ h)
      | exact hasSingleton_append (hasSingleton_fold_mine _ h)
      | exact h

lemma hasSingleton_reducePhase {m : Cell} {ai : AI} (h : HasSingleton m ai) :
    HasSingleton m (reducePhase ai) := by
  have key : ∀ (l : List Sentence) (seen : Finset (Finset Cell)),
      (∃ s ∈ l, s.cells = {m}) → {m} ∉ seen →
      ∃ t ∈ dedupByCells seen l, t.cells = {m} := by
    intro l
    induction l with
    | nil => intro seen h0 _; simp at h0
    | cons a t ih =>
      intro seen h0 hns
      rw [dedupByCells]
      rcases h0 with ⟨s, hs, hc⟩
      rcases List.mem_cons.mp hs with rfl | hmem
      · have hcond : ¬ (s.cells ∈ seen) := by rw [hc]; exact hns
        rw [if_neg hcond]
        exact ⟨s, List.mem_cons_self _ _, hc⟩
      · split_ifs with hseen
        · exact ih seen ⟨s, hmem, hc⟩ hns
        · by_cases hac : a.cells = {m}
          · exact ⟨a, List.mem_cons_self _ _, hac⟩
          · have hnotin : {m} ∉ insert a.cells seen := by
              intro hin
              rcases Finset.mem_insert.mp hin with heq | hin2
              · exact hac heq.symm
              · exact hns hin2
            rcases ih (insert a.cells seen) ⟨s, hmem, hc⟩ hnotin with ⟨u, hu, huc⟩
            exact ⟨u, List.mem_cons_of_mem _ hu, huc⟩
  rcases h with ⟨s, hs, hc⟩
  rcases key ai.knowledge ∅ ⟨s, hs, hc⟩ (Finset.not_mem_empty _) with ⟨u, hu, huc⟩
  exact ⟨u, hu, huc⟩

lemma hasSingleton_step12 (ai : AI) (move : Cell) :
    HasSingleton move (ai.step12 move) := by
  unfold AI.step12
  apply hasSingleton_mark_safe
  exact ⟨⟨{move}, 0⟩, List.mem_append_right _ (List.mem_singleton_self _), rfl⟩

/-- Claim C10.  After every add_knowledge call the pool contains a
sentence whose cell set is exactly the singleton of the observed cell:
the sentence appended at line 204 keeps its cell set through every later
mark, the subset loop and the deduplication. -/
theorem pool_contains_move_singleton :
    ∀ (ai : AI) (move : Cell) (count : Int),
      ∃ s ∈ (ai.add_knowledge move count).knowledge, s.cells = {move} := by
  intro ai move count
  show HasSingleton move (reducePhase (subsetPhase
    (phase45 ((ai.step12 move).step3 move count)
      (neighborList (ai.step12 move).height (ai.step12 move).width move) count)))
  apply hasSingleton_reducePhase
  apply hasSingleton_subsetPhase
  apply hasSingleton_phase45
  have h12 := hasSingleton_step12 ai move
  rcases h12 with ⟨s, hs, hc⟩
  exact ⟨s, List.mem_append_left _ hs, hc⟩

/-- A sentence is satisfied by a mine layout: its count is exactly the
number of layout mines among its cells. -/
def Sentence.Holds (layout : Finset Cell) (s : Sentence) : Prop :=
  s.count = ((s.cells ∩ layout).card : Int)

/-- Soundness invariant of a knowledge-base state with respect to a mine
layout: every pool sentence is satisfied by the layout, no safe cell is a
layout mine, and every marked mine is a layout mine. -/
def InvAI (layout : Finset Cell) (ai : AI) : Prop :=
  (∀ s ∈ ai.knowledge, s.Holds layout) ∧
  (∀ c ∈ ai.safes, c ∉ layout) ∧ ai.mines ⊆ layout

lemma holds_mark_safe {layout : Finset Cell} {s : Sentence} {c : Cell}
    (hc : c ∉ layout) (h : s.Holds layout) :
    (Sentence.mark_safe c s).Holds layout := by
  unfold Sentence.mark_safe Sentence.Holds at *
  split_ifs with h1 h2
  · dsimp only
    rw [h1, Finset.singleton_inter_of_not_mem hc]
    simp
  · dsimp only
    have heq : (s.cells \ {c}) ∩ layout = s.cells ∩ layout := by
      ext x
      simp only [Finset.mem_inter, Finset.mem_sdiff, Finset.mem_singleton]
      constructor
      · rintro ⟨⟨hx, _⟩, hl⟩; exact ⟨hx, hl⟩
      · rintro ⟨hx, hl⟩; exact ⟨⟨hx, fun he => hc (he ▸ hl)⟩, hl⟩
    rw [heq]
    exact h
  · exact h

lemma holds_mark_mine {layout : Finset Cell} {s : Sentence} {c : Cell}
    (hc : c ∈ layout) (h : s.Holds layout) :
    (Sentence.mark_mine c s).Holds layout := by
  unfold Sentence.mark_mine Sentence.Holds at *
  split_ifs with h1 h2
  · dsimp only
    rw [h1, Finset.singleton_inter_of_mem hc]
    simp
  · dsimp only
    have hcm : c ∈ s.cells := Finset.singleton_subset_iff.mp h2.subset
    have hcin : c ∈ s.cells ∩ layout := Finset.mem_inter.mpr ⟨hcm, hc⟩
    have heq : (s.cells \ {c}) ∩ layout = (s.cells ∩ layout).erase c := by
      ext x
      simp only [Finset.mem_inter, Finset.mem_sdiff, Finset.mem_singleton,
        Finset.mem_erase]
      tauto
    rw [heq, Finset.card_erase_of_mem hcin]
    have hpos : 0 < (s.cells ∩ layout).card := Finset.card_pos.mpr ⟨c, hcin⟩
    omega
  · exact h

lemma holds_derived {layout : Finset Cell} {sen snt : Sentence}
    (hA : sen.Holds layout) (hB : snt.Holds layout)
    (hsub : sen.cells ⊆ snt.cells) :
    Sentence.Holds layout ⟨snt.cells \ sen.cells, snt.count - sen.count⟩ := by
  unfold Sentence.Holds at *
  dsimp only
  have heq : (snt.cells \ sen.cells) ∩ layout =
      (snt.cells ∩ layout) \ (sen.cells ∩ layout) := by
    ext x
    simp only [Finset.mem_inter, Finset.mem_sdiff]
    tauto
  have hsub2 : sen.cells ∩ layout ⊆ snt.cells ∩ layout :=
    Finset.inter_subset_inter hsub (Finset.Subset.refl _)
  rw [heq, Finset.card_sdiff hsub2]
  have hle : (sen.cells ∩ layout).card ≤ (snt.cells ∩ layout).card :=
    Finset.card_le_card hsub2
  omega

lemma holds_zero_safe {layout : Finset Cell} {s : Sentence}
    (h : s.Holds layout) (h0 : s.count = 0) : ∀ c ∈ s.cells, c ∉ layout := by
  unfold Sentence.Holds at h
  intro c hc hl
  rw [h0] at h
  have hcard : (s.cells ∩ layout).card = 0 := by omega
  have hin : c ∈ s.cells ∩ layout := Finset.mem_inter.mpr ⟨hc, hl⟩
  rw [Finset.card_eq_zero] at hcard
  rw [hcard] at hin
  exact absurd hin (Finset.not_mem_empty c)

lemma holds_full_mine {layout : Finset Cell} {s : Sentence}
    (h : s.Holds layout) (hf : s.count = (s.cells.card : Int)) :
    ∀ c ∈ s.cells, c ∈ layout := by
  unfold Sentence.Holds at h
  have hcard : (s.cells ∩ layout).card = s.cells.card := by omega
  have heq : s.cells ∩ layout = s.cells :=
    Finset.eq_of_subset_of_card_le Finset.inter_subset_left (le_of_eq hcard.symm)
  intro c hc
  have hin : c ∈ s.cells ∩ layout := heq.symm ▸ hc
  exact (Finset.mem_inter.mp hin).2

lemma invAI_mark_safe {layout : Finset Cell} {ai : AI} {c : Cell}
    (hc : c ∉ layout) (h : InvAI layout ai) : InvAI layout (ai.mark_safe c) := by
  obtain ⟨hk, hs, hm⟩ := h
  refine ⟨?_, ?_, hm⟩
  · intro s hsmem
    rcases List.mem_map.mp hsmem with ⟨t, ht, rfl⟩
    exact holds_mark_safe hc (hk t ht)
  · intro x hx
    rcases Finset.mem_insert.mp hx with rfl | hx2
    · exact hc
    · exact hs x hx2

lemma invAI_mark_mine {layout : Finset Cell} {ai : AI} {c : Cell}
    (hc : c ∈ layout) (h : InvAI layout ai) : InvAI layout (ai.mark_mine c) := by
  obtain ⟨hk, hs, hm⟩ := h
  refine ⟨?_, hs, ?_⟩
  · intro s hsmem
    rcases List.mem_map.mp hsmem with ⟨t, ht, rfl⟩
    exact holds_mark_mine hc (hk t ht)
  · exact Finset.insert_subset hc hm

lemma foldl_preserves_mem {α β : Type} (P : α → Prop) (g : α → β → α) :
    ∀ (l : List β), (∀ x b, b ∈ l → P x → P (g x b)) →
      ∀ (a : α), P a → P (l.foldl g a) := by
  intro l
  induction l with
  | nil => intro _ a ha; exact ha
  | cons b t ih =>
    intro h a ha
    exact ih (fun x c hc hx => h x c (List.mem_cons_of_mem b hc) hx) (g a b)
      (h a b (List.mem_cons_self b t) ha)

lemma invAI_fold_safe {layout : Finset Cell} {ai : AI} {l : List Cell}
    (hl : ∀ c ∈ l, c ∉ layout) (h : InvAI layout ai) :
    InvAI layout (l.foldl AI.mark_safe ai) :=
  foldl_preserves_mem (InvAI layout) AI.mark_safe l
    (fun _x c hc hx => invAI_mark_safe (hl c hc) hx) ai h

lemma invAI_fold_mine {layout : Finset Cell} {ai : AI} {l : List Cell}
    (hl : ∀ c ∈ l, c ∈ layout) (h : InvAI layout ai) :
    InvAI layout (l.foldl AI.mark_mine ai) :=
  foldl_preserves_mem (InvAI layout) AI.mark_mine l
    (fun _x c hc hx => invAI_mark_mine (hl c hc) hx) ai h

lemma invAI_double_ite {layout : Finset Cell} {ai : AI} {ns : Finset Cell}
    {nc : Int} (hD : Sentence.Holds layout ⟨ns, nc⟩) (h : InvAI layout ai) :
    InvAI layout (if nc = ((ns.card : Int))
      then (cellsAsc ns).foldl AI.mark_mine
        (if nc = 0 then (cellsAsc ns).foldl AI.mark_safe ai else ai)
      else (if nc = 0 then (cellsAsc ns).foldl AI.mark_safe ai else ai)) := by
  have h1 : InvAI layout (if nc = 0 then (cellsAsc ns).foldl AI.mark_safe ai else ai) := by
    split_ifs with h0
    · refine invAI_fold_safe ?_ h
      intro c hc
      exact holds_zero_safe hD h0 c (mem_cellsAsc.mp hc)
    · exact h
  by_cases hfull : nc = ((ns.card : Int))
  · rw [if_pos hfull]
    refine invAI_fold_mine ?_ h1
    intro c hc
    exact holds_full_mine hD hfull c (mem_cellsAsc.mp hc)
  · rw [if_neg hfull]
    exact h1

/-- Invariant on the subset-loop state: the AI satisfies the soundness
invariant and every accumulated derived sentence is satisfied. -/
def InvSt (layout : Finset Cell) (st : AI × List Sentence) : Prop :=
  InvAI layout st.1 ∧ ∀ s ∈ st.2, s.Holds layout

lemma invSt_pairStep {layout : Finset Cell} (st : AI × List Sentence)
    (i j : Nat) (h : InvSt layout st) : InvSt layout (pairStep st i j) := by
  obtain ⟨hai, hnk⟩ := h
  unfold pairStep
  cases hi : st.1.knowledge.get? i with
  | none => exact ⟨hai, hnk⟩
  | some sen =>
    cases hj : st.1.knowledge.get? j with
    | none => exact ⟨hai, hnk⟩
    | some snt =>
      dsimp only
      have hsenH : sen.Holds layout := hai.1 sen (List.get?_mem hi)
      have hsntH : snt.Holds layout := hai.1 snt (List.get?_mem hj)
      by_cases he : sen = snt
      · rw [if_pos he]; exact ⟨hai, hnk⟩
      · rw [if_neg he]
        by_cases hsub : sen.cells ⊂ snt.cells
        · rw [if_pos hsub]
          have hD : Sentence.Holds layout
              ⟨snt.cells \ sen.cells, snt.count - sen.count⟩ :=
            holds_derived hsenH hsntH hsub.subset
          refine ⟨invAI_double_ite hD hai, ?_⟩
          intro s hsmem
          rcases List.mem_append.mp hsmem with hold | hnew
          · exact hnk s hold
          · rw [List.mem_singleton.mp hnew]
            exact hD
        · rw [if_neg hsub]; exact ⟨hai, hnk⟩

lemma invAI_subsetPhase {layout : Finset Cell} {ai : AI}
    (h : InvAI layout ai) : InvAI layout (subsetPhase ai) := by
  unfold subsetPhase
  dsimp only
  have hst : InvSt layout ((List.range ai.knowledge.length).foldl
      (fun st1 i => (List.range ai.knowledge.length).foldl
        (fun st2 j => pairStep st2 i j) st1) (ai, [])) := by
    apply foldl_preserves (InvSt layout)
    · intro x i hx
      apply foldl_preserves (InvSt layout)
      · intro y j hy
        exact invSt_pairStep y i j hy
      · exact hx
    · exact ⟨h, fun s hs => absurd hs (List.not_mem_nil s)⟩
  obtain ⟨⟨hk, hs, hm⟩, hnk⟩ := hst
  refine ⟨?_, hs, hm⟩
  intro s hsmem
  rcases List.mem_append.mp hsmem with h1 | h2
  · exact hk s h1
  · exact hnk s h2

lemma invAI_phase45 {layout : Finset Cell} {ai : AI} (nb : List Cell)
    (count : Int) (htruth : count = ((nb.toFinset ∩ layout).card : Int))
    (h : InvAI layout ai) : InvAI layout (phase45 ai nb count) := by
  unfold phase45
  by_cases h0 : count = 0
  · rw [if_pos h0]
    have hnl : ∀ c ∈ nb, c ∉ layout := by
      intro c hc hcl
      have hcard : (nb.toFinset ∩ layout).card = 0 := by omega
      have hin : c ∈ nb.toFinset ∩ layout :=
        Finset.mem_inter.mpr ⟨List.mem_toFinset.mpr hc, hcl⟩
      rw [Finset.card_eq_zero] at hcard
      rw [hcard] at hin
      exact absurd hin (Finset.not_mem_empty c)
    have hfold : InvAI layout (nb.foldl AI.mark_safe ai) := invAI_fold_safe hnl h
    split_ifs with hemp
    · exact hfold
    · obtain ⟨hk, hs, hm⟩ := hfold
      refine ⟨?_, hs, hm⟩
      intro s hsm
      rcases List.mem_append.mp hsm with h1 | h2
      · exact hk s h1
      · rcases List.mem_map.mp h2 with ⟨c, hcnb, rfl⟩
        unfold Sentence.Holds
        dsimp only
        rw [Finset.singleton_inter_of_not_mem (hnl c hcnb)]
        simp
  · rw [if_neg h0]
    by_cases hfull : count = ((nb.toFinset.card : Int))
    · rw [if_pos hfull]
      have hml : ∀ c ∈ nb, c ∈ layout := by
        intro c hc
        have hcardeq : (nb.toFinset ∩ layout).card = nb.toFinset.card := by omega
        have heq : nb.toFinset ∩ layout = nb.toFinset :=
          Finset.eq_of_subset_of_card_le Finset.inter_subset_left
            (le_of_eq hcardeq.symm)
        have hin : c ∈ nb.toFinset ∩ layout :=
          heq.symm ▸ List.mem_toFinset.mpr hc
        exact (Finset.mem_inter.mp hin).2
      have hfold : InvAI layout (nb.foldl AI.mark_mine ai) := invAI_fold_mine hml h
      split_ifs with hemp
      · exact hfold
      · obtain ⟨hk, hs, hm⟩ := hfold
        refine ⟨?_, hs, hm⟩
        intro s hsm
        rcases List.mem_append.mp hsm with h1 | h2
        · exact hk s h1
        · rcases List.mem_map.mp h2 with ⟨c, hcnb, rfl⟩
          unfold Sentence.Holds
          dsimp only
          rw [Finset.singleton_inter_of_mem (hml c hcnb)]
          simp
    · rw [if_neg hfull]
      exact h

lemma invAI_step12 {layout : Finset Cell} {ai : AI} (move : Cell)
    (hmv : move ∉ layout) (h : InvAI layout ai) :
    InvAI layout (ai.step12 move) := by
  unfold AI.step12
  apply invAI_mark_safe hmv
  obtain ⟨hk, hs, hm⟩ := h
  refine ⟨?_, hs, hm⟩
  intro s hsm
  rcases List.mem_append.mp hsm with h1 | h2
  · exact hk s h1
  · rw [List.mem_singleton.mp h2]
    unfold Sentence.Holds
    dsimp only
    rw [Finset.singleton_inter_of_not_mem hmv]
    simp

lemma invAI_step3 {layout : Finset Cell} {ai : AI} (move : Cell) (count : Int)
    (htruth : count =
      (((neighborList ai.height ai.width move).toFinset ∩ layout).card : Int))
    (h : InvAI layout ai) : InvAI layout (ai.step3 move count) := by
  obtain ⟨hk, hs, hm⟩ := h
  refine ⟨?_, hs, hm⟩
  intro s hsm
  rcases List.mem_append.mp hsm with h1 | h2
  · exact hk s h1
  · rw [List.mem_singleton.mp h2]
    unfold Sentence.Holds
    exact htruth

lemma dedup_subset :
    ∀ (l : List Sentence) (seen : Finset (Finset Cell)) (s : Sentence),
      s ∈ dedupByCells seen l → s ∈ l := by
  intro l
  induction l with
  | nil => intro seen s h; simp [dedupByCells] at h
  | cons a t ih =>
    intro seen s h
    rw [dedupByCells] at h
    split_ifs at h with hc
    · exact List.mem_cons_of_mem a (ih seen s h)
    · rcases List.mem_cons.mp h with rfl | hmem
      · exact List.mem_cons_self _ _
      · exact List.mem_cons_of_mem a (ih (insert a.cells seen) s hmem)

lemma invAI_reducePhase {layout : Finset Cell} {ai : AI}
    (h : InvAI layout ai) : InvAI layout (reducePhase ai) := by
  obtain ⟨hk, hs, hm⟩ := h
  exact ⟨fun s hsm => hk s (dedup_subset ai.knowledge ∅ s hsm), hs, hm⟩

lemma truthful_invAI {layout : Finset Cell} {ai : AI} (h : TReach layout ai) :
    InvAI layout ai := by
  induction h with
  | init height width =>
    refine ⟨?_, ?_, ?_⟩
    · intro s hs
      exact absurd hs (List.not_mem_nil s)
    · intro c hc
      exact absurd hc (Finset.not_mem_empty c)
    · exact Finset.empty_subset layout
  | step ai move count _hreach hmv htruth ih =>
    show InvAI layout (reducePhase (subsetPhase
      (phase45 ((ai.step12 move).step3 move count)
        (neighborList (ai.step12 move).height (ai.step12 move).width move) count)))
    apply invAI_reducePhase
    apply invAI_subsetPhase
    apply invAI_phase45 _ _ ?_ (invAI_step3 _ _ ?_ (invAI_step12 _ hmv ih))
    · exact htruth
    · exact htruth

/-- Claim C1, amended.  For every state reached by a sequence of
add_knowledge calls whose observations are truthful for one fixed mine
layout (the observed cell is never a layout mine and each reported count
is the exact number of layout mines among the in-bounds neighbors), the
sets mines and safes are disjoint: every marked mine is a layout mine and
no safe cell is, at every point. -/
theorem truthful_mines_safes_disjoint :
    ∀ (layout : Finset Cell) (ai : AI), TReach layout ai →
      ∀ c : Cell, ¬ (c ∈ ai.mines ∧ c ∈ ai.safes) := by
  intro layout ai h c hboth
  obtain ⟨_, hsafe, hmine⟩ := truthful_invAI h
  exact hsafe c hboth.2 (hmine hboth.1)

/-- Witness for the amended claim C1: a concrete truthful two-observation
history on a 1 by 3 grid with a mine at (0,2); the theorem applies and
the observed cell (0,0) is not in both sets. -/
theorem truthful_mines_safes_disjoint_witness :
    ¬ ((0,0) ∈ (((AI.init 1 3).add_knowledge (0,1) 1).add_knowledge (0,0) 0).mines ∧
       (0,0) ∈ (((AI.init 1 3).add_knowledge (0,1) 1).add_knowledge (0,0) 0).safes) :=
  truthful_mines_safes_disjoint {(0,2)} _
    (TReach.step _ (0,0) 0
      (TReach.step _ (0,1) 1 (TReach.init 1 3) (by decide) (by decide))
      (by decide) (by decide)) (0,0)

/-- Claim C2, amended.  For every state reached by truthful observations
for a fixed mine layout, every pool sentence satisfies the bound
0 <= count <= size of its cell set (each sentence counts the layout
mines among its cells). -/
theorem truthful_pool_count_bounds :
    ∀ (layout : Finset Cell) (ai : AI), TReach layout ai →
      ∀ s ∈ ai.knowledge, 0 ≤ s.count ∧ s.count ≤ (s.cells.card : Int) := by
  intro layout ai h s hs
  have hH := (truthful_invAI h).1 s hs
  unfold Sentence.Holds at hH
  have hle : (s.cells ∩ layout).card ≤ s.cells.card :=
    Finset.card_le_card Finset.inter_subset_left
  omega

/-- Witness for the amended claim C2: after the truthful observation of
(0,0) with count 0 on a mine-free 1 by 2 grid, the pool sentence over the
observed cell satisfies the bound. -/
theorem truthful_pool_count_bounds_witness :
    0 ≤ (⟨{(0,0)}, 0⟩ : Sentence).count ∧
    (⟨{(0,0)}, 0⟩ : Sentence).count ≤ ((⟨{(0,0)}, 0⟩ : Sentence).cells.card : Int) :=
  truthful_pool_count_bounds ∅ _
    (TReach.step _ (0,0) 0 (TReach.init 1 2) (by decide) (by decide))
    ⟨{(0,0)}, 0⟩ (by decide)
